import Mathlib

/-!
Verification of the feature-encoding and chunked-inference pipeline of
`rail_gpz_v1` (`src/rail/estimation/algos/gpz_v1.py`), as a shallow
embedding in Lean.

Scalar values of the photometry table are modelled exactly as rationals
together with a distinguished not-a-number element (`FV`).  Entries of the
encoded feature matrix (`OV`) additionally carry a negative-infinity
element, an `uninit` element standing for cells of the `np.empty` buffer
that the encoding loop never writes, and a symbolic `OV.log q` element
denoting the (irrational) natural logarithm of `q` produced by `np.log`;
claims never need identities between logarithm values, so the symbolic
representation is exact for their purposes.  The process-global numpy
random generator is made explicit as a stream of draws, so the stateful
call `np.random.permutation` becomes a pure function of that stream.
-/

attribute [local semireducible] Rat.mul Rat.add Rat.sub Rat.inv

/-- A scalar of the input table: an IEEE value modelled as an exact
rational or NaN (infinities do not occur in the modelled inputs). -/
inductive FV where
  | nan : FV
  | fin : ℚ → FV
deriving DecidableEq, Repr

/-- A cell of the encoded feature matrix.  `uninit` stands for a cell of
the `np.empty` buffer never written by the loop; `log q` denotes the real
number `Real.log q` (written symbolically so the development stays
computable); `ninf` is `-inf`, the value of `np.log 0`. -/
inductive OV where
  | uninit : OV
  | nan : OV
  | ninf : OV
  | fin : ℚ → OV
  | log : ℚ → OV
deriving DecidableEq, Repr

/-- `np.isnan` on a scalar. -/
def npIsNan : FV → Bool
  | .nan => true
  | .fin _ => false

/-- `np.isclose a b` with the default tolerances `rtol = 1e-5`,
`atol = 1e-8`: `|a - b| <= atol + rtol * |b|`; any NaN operand gives
`False`. -/
def npIsClose (a b : FV) : Bool :=
  match a, b with
  | .fin x, .fin y => |x - y| ≤ 1 / 100000000 + |y| / 100000
  | _, _ => false

/-- Injection of an input scalar into the output-cell type (a plain copy,
as in `data[:, i] = data_dict[band]`). -/
def FV.toOV : FV → OV
  | .nan => .nan
  | .fin q => .fin q

/-- `np.log` on a scalar: NaN propagates, `log 0 = -inf`, the logarithm of
a negative number is NaN, and the logarithm of a positive rational is kept
symbolically. -/
def npLog : FV → OV
  | .nan => .nan
  | .fin q => if 0 < q then .log q else if q = 0 then .ninf else .nan

/-- The per-cell non-detection mask of `_prepare_data`, line 26:
`np.bitwise_or(np.isclose(mag, nondet_val), np.isnan(mag))`. -/
def nondetMask (nondetVal mag : FV) : Bool :=
  npIsClose mag nondetVal || npIsNan mag

/-- A photometry table: for each band identifier, the column of scalar
values (training tables also answer the redshift column identifier). -/
abbrev Table := String → List FV

/-- The configuration consumed by `_prepare_data`: ordered band list,
matching error-band list, non-detection sentinel, the insertion-ordered
band-to-limit mapping `mag_limits`, and the log-errors flag. -/
structure PrepConfig where
  bands : List String
  errBands : List String
  nondetVal : FV
  maglims : List (String × ℚ)
  logflag : Bool
deriving DecidableEq, Repr

/-- Number of iterations of the encoding loop: the length of
`zip(bands, err_bands, maglims.values())`, i.e. the shortest of the three
sequences. -/
def zipLen (cfg : PrepConfig) : Nat :=
  min cfg.bands.length (min cfg.errBands.length cfg.maglims.length)

/-- The magnitude of row `r` in the band at position `i`
(`data_dict[band][r]`). -/
def magAt (tbl : Table) (cfg : PrepConfig) (i r : Nat) : FV :=
  (tbl (cfg.bands.getD i "")).getD r FV.nan

/-- The magnitude error of row `r` in the error band at position `i`
(`data_dict[eband][r]`). -/
def errAt (tbl : Table) (cfg : PrepConfig) (i r : Nat) : FV :=
  (tbl (cfg.errBands.getD i "")).getD r FV.nan

/-- The limit paired with position `i` of the loop: the `i`-th element of
`maglims.values()` in the mapping's iteration order. -/
def limAt (cfg : PrepConfig) (i : Nat) : ℚ :=
  (cfg.maglims.map Prod.snd).getD i 0

/-- Cell `(r, c)` of the `totrows × 2B` matrix built by `_prepare_data`
(lines 21-33).  For `c = i < B` inside the zip range: the magnitude, with
the band's `maglims.values()` entry substituted on masked rows.  For
`c = B + i` inside the zip range: `np.log` of the error (or the raw error
when the flag is off), with `1.0` substituted on masked rows.  Cells of
columns beyond the zip range are never written by the loop. -/
def prepCell (tbl : Table) (cfg : PrepConfig) (r c : Nat) : OV :=
  if c < cfg.bands.length then
    if c < zipLen cfg then
      if nondetMask cfg.nondetVal (magAt tbl cfg c r) then OV.fin (limAt cfg c)
      else (magAt tbl cfg c r).toOV
    else OV.uninit
  else
    if c - cfg.bands.length < zipLen cfg then
      if nondetMask cfg.nondetVal (magAt tbl cfg (c - cfg.bands.length) r) then OV.fin 1
      else if cfg.logflag then npLog (errAt tbl cfg (c - cfg.bands.length) r)
      else (errAt tbl cfg (c - cfg.bands.length) r).toOV
    else OV.uninit

/-- `totrows = len(data_dict[bands[0]])` (line 22). -/
def totrows (tbl : Table) (cfg : PrepConfig) : Nat :=
  (tbl (cfg.bands.getD 0 "")).length

/-- The full matrix returned by `_prepare_data`, row major. -/
def prepMatrix (tbl : Table) (cfg : PrepConfig) : List (List OV) :=
  (List.range (totrows tbl cfg)).map fun r =>
    (List.range (2 * cfg.bands.length)).map fun c => prepCell tbl cfg r c

/-- Lookup of a band's configured limit by its identifier (the mapping
access `maglims[band]`, first matching key). -/
def lookupLim (ml : List (String × ℚ)) (b : String) : Option ℚ :=
  (ml.find? fun p => p.1 == b).map Prod.snd

/-- Swap the elements at positions `i` and `j` of a list (no-op when a
position is out of range), the effect of one Fisher-Yates step. -/
def listSwap (l : List Nat) (i j : Nat) : List Nat :=
  if h : i < l.length ∧ j < l.length then
    (l.set i (l.get ⟨j, h.2⟩)).set j (l.get ⟨i, h.1⟩)
  else l

/-- The in-place Fisher-Yates loop of numpy's `shuffle` on an array of
length `n`: for `i = n-1` down to `1`, draw `j` in `[0, i]` from the
global generator and swap positions `i` and `j`.  The global generator is
modelled as the stream `draws`; the draw consumed at step `i` is
`draws[n-1-i] % (i+1)`. -/
def npShuffleGo (draws : List Nat) (n : Nat) : List Nat → Nat → List Nat
  | arr, 0 => arr
  | arr, i + 1 =>
    npShuffleGo draws n (listSwap arr (i + 1) ((draws.getD (n - 1 - (i + 1)) 0) % (i + 2))) i

/-- `np.random.permutation n`: shuffle `arange n` with the global
generator (modelled by the draw stream). -/
def npPermutation (draws : List Nat) (n : Nat) : List Nat :=
  npShuffleGo draws n (List.range n) (n - 1)

/-- Python's `int()` applied to an exact rational: truncation toward
zero. -/
def pyInt (q : ℚ) : Int :=
  Int.tdiv q.num q.den

/-- The effective split point of the Python slices `a[:k]` and `a[k:]` on
a list of length `n`: negative `k` counts from the end, large `k` is
clamped. -/
def pyIdx (k : Int) (n : Nat) : Nat :=
  if k < 0 then (n + k).toNat else min k.toNat n

/-- The boolean mask of length `n` that is `True` exactly at the listed
positions (`mask = np.zeros(n, bool); mask[idxs] = True`). -/
def memMask (n : Nat) (idxs : List Nat) : List Bool :=
  (List.range n).map fun i => decide (i ∈ idxs)

/-- The configuration surface of `Inform_GPz_v1` (lines 48-67) relevant to
`run`, together with the `_prepare_data` configuration. -/
structure InformConfig where
  prep : PrepConfig
  redshiftCol : String
  trainfrac : ℚ
  seed : Int
  gpzMethod : String
  nBasis : Nat
  learnJointly : Bool
  heteroNoise : Bool
  cslMethod : String
  cslBinwidth : ℚ
  pcaDecorrelate : Bool
  maxIter : Nat
  maxAttempt : Nat
deriving DecidableEq, Repr

/-- Lines 92-97 of `Inform_GPz_v1.run`: `ntrain = int(ngal * trainfrac)`;
`randvec = np.random.permutation(ngal)` (drawing from the process-global
generator `gstate`; the configured seed is not consumed here);
`train_mask[randvec[:ntrain]] = True`; `val_mask[randvec[ntrain:]] =
True`. -/
def informPartition (cfg : InformConfig) (gstate : List Nat) (ngal : Nat) :
    List Bool × List Bool :=
  let ntrain := pyInt ((ngal : ℚ) * cfg.trainfrac)
  let randvec := npPermutation gstate ngal
  let cut := pyIdx ntrain ngal
  (memMask ngal (randvec.take cut), memMask ngal (randvec.drop cut))

/-- The argument record of the call `getOmega(sz, method=...)` on line
100.  `getOmega` itself is in the repository's `GPz` module; only the
arguments the stage passes are modelled.  `binWidth = none` records that
no bin width is supplied. -/
structure OmegaCall where
  targets : List FV
  method : String
  binWidth : Option ℚ
deriving DecidableEq, Repr

/-- The argument record of the constructor call `GP(...)` on lines
103-108. -/
structure GPInit where
  nBasis : Nat
  method : String
  joint : Bool
  heteroscedastic : Bool
  decorrelate : Bool
  seed : Int
deriving DecidableEq, Repr

/-- The argument record of the call `model.train(...)` on lines
111-113 (the `omega` argument is the value returned by the external
`getOmega` call, recorded separately as `OmegaCall`). -/
structure TrainCall where
  inputArray : List (List OV)
  sz : List FV
  trainMask : List Bool
  valMask : List Bool
  maxIter : Nat
  maxAttempts : Nat
deriving DecidableEq, Repr

/-- Everything `Inform_GPz_v1.run` determines on its straight-line path:
the weighting call, the model construction, and the training call. -/
structure InformRunResult where
  omegaCall : OmegaCall
  gpInit : GPInit
  trainCall : TrainCall
deriving DecidableEq, Repr

/-- `Inform_GPz_v1.run` (lines 75-115).  The method performs no input
validation and raises nothing on this path, so the result is always
`Except.ok`; the `Except` layer records that a rejection, had the source
contained one, would be visible here. -/
def informRun (cfg : InformConfig) (tbl : Table) (gstate : List Nat) :
    Except String InformRunResult :=
  let inputArray := prepMatrix tbl cfg.prep
  let sz := tbl cfg.redshiftCol
  let ngal := inputArray.length
  let masks := informPartition cfg gstate ngal
  Except.ok
    { omegaCall := { targets := sz, method := cfg.cslMethod, binWidth := none }
      gpInit :=
        { nBasis := cfg.nBasis, method := cfg.gpzMethod, joint := cfg.learnJointly
          heteroscedastic := cfg.heteroNoise, decorrelate := cfg.pcaDecorrelate
          seed := cfg.seed }
      trainCall :=
        { inputArray := inputArray, sz := sz, trainMask := masks.1, valMask := masks.2
          maxIter := cfg.maxIter, maxAttempts := cfg.maxAttempt } }

/-- The weighting call recorded by a run, when the run succeeded. -/
def omegaOf : Except String InformRunResult → Option OmegaCall
  | .ok r => some r.omegaCall
  | .error _ => none

/-- The training call recorded by a run, when the run succeeded. -/
def trainOf : Except String InformRunResult → Option TrainCall
  | .ok r => some r.trainCall
  | .error _ => none

/-- Modelled from the spec: the trained GPz model (the repository's
`GPz.GP` class is not under `src/`).  Its prediction entry point returns,
per row of the feature matrix, the predictive mean, total variance, model
variance, noise variance and a reserved fifth value, so it is modelled as
an arbitrary per-row function applied to each feature row. -/
structure GPzModel where
  predictRow : List OV → ℚ × ℚ × ℚ × ℚ × ℚ

/-- The configuration surface of the `GPz_v1` estimator (lines 122-131)
relevant to `_process_chunk`. -/
structure EstimConfig where
  prep : PrepConfig
  zmin : ℚ
  zmax : ℚ
  nzbins : Nat
deriving Repr

/-- `np.linspace a b n`: `n` evenly spaced points from `a` to `b`
inclusive. -/
def npLinspace (a b : ℚ) (n : Nat) : List ℚ :=
  if n = 1 then [a]
  else (List.range n).map fun k => a + (b - a) * k / (n - 1)

/-- Modelled from the spec: the mode-over-grid query of the external
ensemble boundary (`qp.Ensemble(...).mode(grid=...)`, the `qp` library).
For a Gaussian row the density is maximal at the grid point closest to
the location, so the query returns the first grid point of minimal
squared distance to `loc` (numpy's argmax takes the first maximum). -/
def qpNormMode (grid : List ℚ) (loc : ℚ) : ℚ :=
  grid.foldl (fun best x => if (x - loc) ^ 2 < (best - loc) ^ 2 then x else best)
    (grid.headD 0)

/-- The per-row output of `GPz_v1._process_chunk`: the prediction, the
parameters `loc`/`scale` the source passes to `qp.Ensemble(qp.stats.norm,
...)`, and the `zmode` ancillary value. -/
structure RowResult where
  mu : ℚ
  totalV : ℚ
  modelV : ℚ
  noiseV : ℚ
  loc : ℚ
  scale : ℚ
  zmode : ℚ
deriving DecidableEq, Repr

/-- `GPz_v1._process_chunk` (lines 139-150) on one chunk table: encode the
chunk with `_prepare_data`, predict per row, build the Gaussian ensemble
with `loc = mu` and `scale = totalV` (line 146 passes the total variance
itself as the scale), and take the mode over
`np.linspace(zmin, zmax, nzbins)`. -/
def processChunk (model : GPzModel) (cfg : EstimConfig) (tbl : Table) :
    List RowResult :=
  let X := prepMatrix tbl cfg.prep
  let preds := X.map model.predictRow
  let grid := npLinspace cfg.zmin cfg.zmax cfg.nzbins
  preds.map fun p =>
    { mu := p.1, totalV := p.2.1, modelV := p.2.2.1, noiseV := p.2.2.2.1
      loc := p.1, scale := p.2.1, zmode := qpNormMode grid p.1 }

/-- The chunk of a table covering rows `[s, e)`: every column sliced to
that row range. -/
def sliceTable (tbl : Table) (s e : Nat) : Table :=
  fun b => ((tbl b).drop s).take (e - s)

/-- The `[start, end)` ranges of consecutive chunks of the given sizes,
beginning at `s`. -/
def chunkStarts : List Nat → Nat → List (Nat × Nat)
  | [], _ => []
  | sz :: rest, s => (s, s + sz) :: chunkStarts rest (s + sz)

/-- Chunked inference: run `_process_chunk` on each consecutive chunk of
the given sizes and emit the outputs in input row order. -/
def processChunked (model : GPzModel) (cfg : EstimConfig) (tbl : Table)
    (sizes : List Nat) : List RowResult :=
  ((chunkStarts sizes 0).map fun p =>
    processChunk model cfg (sliceTable tbl p.1 p.2)).flatten

/-- The per-row computation `_process_chunk` performs, extracted for the
chunk-invariance proof: the row result depends only on the row's feature
vector and the (read-only) model and grid. -/
def rowResult (model : GPzModel) (cfg : EstimConfig) (tbl : Table) (r : Nat) : RowResult :=
  let p := model.predictRow
    ((List.range (2 * cfg.prep.bands.length)).map fun c => prepCell tbl cfg.prep r c)
  let grid := npLinspace cfg.zmin cfg.zmax cfg.nzbins
  { mu := p.1, totalV := p.2.1, modelV := p.2.2.1, noiseV := p.2.2.2.1
    loc := p.1, scale := p.2.1, zmode := qpNormMode grid p.1 }

/-- The shared-parameter default configuration of the inform stage used
for concrete instances (5-band configurations are not needed; one band
suffices to exercise every code path). -/
def prepBase : PrepConfig :=
  { bands := ["u"], errBands := ["eu"], nondetVal := FV.fin 99,
    maglims := [("u", 28)], logflag := true }

/-- A concrete inform-stage configuration with the source's defaults
(`trainfrac = 0.75`, `seed = 87`, ...). -/
def cfgBase : InformConfig :=
  { prep := prepBase, redshiftCol := "z", trainfrac := 3 / 4, seed := 87,
    gpzMethod := "VC", nBasis := 50, learnJointly := true, heteroNoise := true,
    cslMethod := "normal", cslBinwidth := 1 / 10, pcaDecorrelate := true,
    maxIter := 200, maxAttempt := 100 }

/-- `cfgBase` with a different configured seed. -/
def cfgSeedAlt : InformConfig := { cfgBase with seed := 99 }

/-- A band/limit configuration whose `mag_limits` mapping holds exactly
the right keys but in an iteration order different from the band list:
`bands = [u, g]` while the mapping lists `g` first. -/
def cfgSwap : PrepConfig :=
  { bands := ["u", "g"], errBands := ["eu", "eg"], nondetVal := FV.fin 99,
    maglims := [("g", 25), ("u", 27)], logflag := true }

/-- A one-row table whose `u` magnitude equals the non-detection sentinel
(so the row is masked in band `u`). -/
def tblSwap : Table := fun b =>
  if b = "u" then [FV.fin 99]
  else if b = "g" then [FV.fin 20]
  else if b = "eu" then [FV.fin (1 / 2)]
  else if b = "eg" then [FV.fin (1 / 3)]
  else []

/-- A two-band configuration whose `mag_limits` iteration order matches
the band list. -/
def cfgAligned : PrepConfig :=
  { bands := ["u", "g"], errBands := ["eu", "eg"], nondetVal := FV.fin 99,
    maglims := [("u", 27), ("g", 25)], logflag := true }

/-- `cfgAligned` with the log-errors flag disabled. -/
def cfgNoLog : PrepConfig := { cfgAligned with logflag := false }

/-- A one-row table with a masked `u` magnitude and an unmasked `g`
magnitude. -/
def tblAligned : Table := fun b =>
  if b = "u" then [FV.fin 99]
  else if b = "g" then [FV.fin 20]
  else if b = "eu" then [FV.fin (1 / 2)]
  else if b = "eg" then [FV.fin (1 / 3)]
  else []

/-- A one-row labeled table over `prepBase` bands. -/
def tblZ : Table := fun b =>
  if b = "u" then [FV.fin 20]
  else if b = "eu" then [FV.fin (1 / 10)]
  else if b = "z" then [FV.fin (3 / 10)]
  else []

/-- A three-row labeled table over `prepBase` bands (third row is a
non-detection). -/
def tbl8 : Table := fun b =>
  if b = "u" then [FV.fin 20, FV.fin 21, FV.fin 99]
  else if b = "eu" then [FV.fin (1 / 10), FV.fin (1 / 5), FV.fin (1 / 2)]
  else if b = "z" then [FV.fin (1 / 10), FV.fin (1 / 5), FV.fin (3 / 10)]
  else []

/-- `cfgBase` with a training fraction so small that `floor(3 * f) = 0`. -/
def cfg8 : InformConfig := { cfgBase with trainfrac := 1 / 5 }

/-- `cfgBase` with the balanced cost-sensitive-learning method and a
non-default bin width. -/
def cfgBal : InformConfig := { cfgBase with cslMethod := "balanced", cslBinwidth := 1 / 5 }

/-- A concrete trained model whose prediction has total variance `4`
for every row (mean `1/2`, model variance `3`, noise variance `1`). -/
def mC1 : GPzModel := ⟨fun _ => (1 / 2, 4, 3, 1, 0)⟩

/-- A concrete trained model whose predicted mean is the row's first
feature (so different rows get different outputs). -/
def m9 : GPzModel :=
  ⟨fun row => (match row.headD OV.uninit with | OV.fin q => q | _ => 0, 1, 0, 0, 0)⟩

/-- A concrete estimator configuration over `prepBase` with the grid
`linspace(0, 3, 4)`. -/
def cfgE1 : EstimConfig := { prep := prepBase, zmin := 0, zmax := 3, nzbins := 4 }

/-! ### Permutation machinery for the partition step -/

/-- Updating position `i` of a list exchanges one occurrence of `l[i]`
for one occurrence of the new value, counting-wise. -/
theorem count_set (l : List Nat) : ∀ (i a x : Nat), (h : i < l.length) →
    (l.set i a).count x + (if l[i] = x then 1 else 0)
      = l.count x + (if a = x then 1 else 0) := by
  induction l with
  | nil => intro i a x h; simp at h
  | cons b t ih =>
    intro i a x h
    cases i with
    | zero =>
      simp only [List.set_cons_zero, List.count_cons, List.getElem_cons_zero, beq_iff_eq]
      split <;> split <;> omega
    | succ i =>
      have ht : i < t.length := by simpa using h
      have := ih i a x ht
      simp only [List.set_cons_succ, List.count_cons, List.getElem_cons_succ, beq_iff_eq]
      split <;> omega

/-- A Fisher-Yates swap is a permutation of the list. -/
theorem listSwap_perm (l : List Nat) (i j : Nat) : (listSwap l i j).Perm l := by
  unfold listSwap
  split
  case isFalse => exact List.Perm.refl l
  case isTrue h =>
    apply List.perm_iff_count.mpr
    intro x
    have hj1 : j < (l.set i (l.get ⟨j, h.2⟩)).length := by simpa using h.2
    have e1 := count_set (l.set i (l.get ⟨j, h.2⟩)) j (l.get ⟨i, h.1⟩) x hj1
    have e2 := count_set l i (l.get ⟨j, h.2⟩) x h.1
    have e3 : (l.set i (l.get ⟨j, h.2⟩))[j] = l[j] := by
      rw [List.getElem_set]
      split <;> simp [List.get_eq_getElem]
    rw [e3] at e1
    simp only [List.get_eq_getElem] at e1 e2 ⊢
    split_ifs at e1 e2 <;> omega

/-- The Fisher-Yates loop permutes its input array. -/
theorem npShuffleGo_perm (draws : List Nat) (n : Nat) :
    ∀ (i : Nat) (arr : List Nat), (npShuffleGo draws n arr i).Perm arr := by
  intro i
  induction i with
  | zero => intro arr; exact List.Perm.refl arr
  | succ i ih =>
    intro arr
    exact (ih _).trans (listSwap_perm arr (i + 1) _)

/-- `np.random.permutation n` is a permutation of `0..n-1`. -/
theorem npPermutation_perm (draws : List Nat) (n : Nat) :
    (npPermutation draws n).Perm (List.range n) :=
  npShuffleGo_perm draws n (n - 1) (List.range n)

/-- The permuted index vector has no duplicates. -/
theorem npPermutation_nodup (draws : List Nat) (n : Nat) :
    (npPermutation draws n).Nodup :=
  (npPermutation_perm draws n).nodup_iff.mpr (List.nodup_range n)

/-- The permuted index vector contains exactly the indices below `n`. -/
theorem mem_npPermutation (draws : List Nat) (n x : Nat) :
    x ∈ npPermutation draws n ↔ x < n :=
  ((npPermutation_perm draws n).mem_iff).trans (List.mem_range)

/-- The permuted index vector has length `n`. -/
theorem npPermutation_length (draws : List Nat) (n : Nat) :
    (npPermutation draws n).length = n := by
  have := (npPermutation_perm draws n).length_eq
  simpa using this

/-- Reading a boolean mask inside its range decides membership in the
index list it was built from. -/
theorem memMask_getD (n : Nat) (idxs : List Nat) (i : Nat) (h : i < n) :
    (memMask n idxs).getD i false = decide (i ∈ idxs) := by
  simp [memMask, List.getD_eq_getElem?_getD, List.getElem?_range h]

/-- A mask built from distinct in-range indices has exactly as many
`true` entries as there are indices. -/
theorem memMask_count (n : Nat) (idxs : List Nat) (hnd : idxs.Nodup)
    (hlt : ∀ x ∈ idxs, x < n) :
    (memMask n idxs).count true = idxs.length := by
  rw [memMask, List.count_eq_countP, List.countP_map]
  have hp : ((fun b => b == true) ∘ fun i => decide (i ∈ idxs))
      = fun i => decide (i ∈ idxs) := by
    funext i; simp
  rw [hp, List.countP_eq_length_filter]
  have hperm : ((List.range n).filter fun i => decide (i ∈ idxs)).Perm idxs := by
    rw [List.perm_ext_iff_of_nodup ((List.nodup_range n).filter _) hnd]
    intro a
    simp only [List.mem_filter, List.mem_range, decide_eq_true_eq]
    exact ⟨fun hx => hx.2, fun hx => ⟨hlt a hx, hx⟩⟩
  exact hperm.length_eq

/-- The slice point of the partition never exceeds the list length. -/
theorem pyIdx_le (k : Int) (n : Nat) : pyIdx k n ≤ n := by
  unfold pyIdx
  split
  · omega
  · exact Nat.min_le_right _ _

/-- Unconditionally, the training mask has exactly `cut` `true` entries
and the validation mask the remaining `n - cut`, where `cut` is the
effective slice point `int(n * trainfrac)` of the permuted index
vector. -/
theorem informPartition_count (cfg : InformConfig) (g : List Nat) (n : Nat) :
    (informPartition cfg g n).1.count true
        = pyIdx (pyInt ((n : ℚ) * cfg.trainfrac)) n
      ∧ (informPartition cfg g n).2.count true
        = n - pyIdx (pyInt ((n : ℚ) * cfg.trainfrac)) n := by
  have hlen := npPermutation_length g n
  have hnd := npPermutation_nodup g n
  have hcut : pyIdx (pyInt ((n : ℚ) * cfg.trainfrac)) n ≤ n := pyIdx_le _ _
  constructor
  · show (memMask n ((npPermutation g n).take _)).count true = _
    rw [memMask_count n _ (hnd.sublist (List.take_sublist _ _))
      (fun x hx => (mem_npPermutation g n x).mp (List.mem_of_mem_take hx))]
    rw [List.length_take, hlen]
    omega
  · show (memMask n ((npPermutation g n).drop _)).count true = _
    rw [memMask_count n _ (hnd.sublist (List.drop_sublist _ _))
      (fun x hx => (mem_npPermutation g n x).mp (List.mem_of_mem_drop hx))]
    rw [List.length_drop, hlen]

/-- Toward-zero truncation agrees with the floor on nonnegative
rationals. -/
theorem pyInt_eq_floor (q : ℚ) (h : 0 ≤ q) : pyInt q = ⌊q⌋ := by
  unfold pyInt
  rw [Int.tdiv_eq_ediv (Rat.num_nonneg.mpr h) (Int.natCast_nonneg _)]
  exact (Rat.floor_def).symm

/-! ### Claims about the partition step (C2, C4, C5) -/

/-- C2, counterexample: two invocations of the partition step with the
same configuration (hence the same configured seed `87`) and the same
`N = 2`, but different states of the process-global numpy generator,
produce different masks — `np.random.permutation` reads the global
generator, which `Inform_GPz_v1.run` never seeds from its configuration. -/
theorem c2_counterexample :
    informPartition cfgBase [0] 2 ≠ informPartition cfgBase [1] 2 := by decide

/-- C2, amended: the masks are a deterministic function of the global
generator's draws, the row count and the training fraction alone; in
particular every other configuration field, including the configured
seed, is irrelevant to them. -/
theorem c2_masks_determined_by_global_rng (cfg1 cfg2 : InformConfig) (g : List Nat)
    (n : Nat) (h : cfg1.trainfrac = cfg2.trainfrac) :
    informPartition cfg1 g n = informPartition cfg2 g n := by
  unfold informPartition
  rw [h]

/-- C2, witness: configurations differing only in the seed yield
identical masks for the same global-generator state. -/
theorem c2_witness : cfgBase.trainfrac = cfgSeedAlt.trainfrac
    ∧ informPartition cfgBase [0] 2 = informPartition cfgSeedAlt [0] 2 :=
  ⟨rfl, c2_masks_determined_by_global_rng cfgBase cfgSeedAlt [0] 2 rfl⟩

/-- C4: for every row count, training fraction and generator state, the
two masks are disjoint (no index is `True` in both) and exhaustive (each
index below `N` is `True` in at least one, hence in exactly one). -/
theorem c4_masks_disjoint_exhaustive (cfg : InformConfig) (g : List Nat) (n i : Nat)
    (h : i < n) :
    ((informPartition cfg g n).1.getD i false
        && (informPartition cfg g n).2.getD i false) = false
      ∧ ((informPartition cfg g n).1.getD i false
        || (informPartition cfg g n).2.getD i false) = true := by
  have h1 : (informPartition cfg g n).1
      = memMask n ((npPermutation g n).take (pyIdx (pyInt ((n : ℚ) * cfg.trainfrac)) n)) := rfl
  have h2 : (informPartition cfg g n).2
      = memMask n ((npPermutation g n).drop (pyIdx (pyInt ((n : ℚ) * cfg.trainfrac)) n)) := rfl
  rw [h1, h2, memMask_getD n _ i h, memMask_getD n _ i h]
  have hsplit := List.take_append_drop
    (pyIdx (pyInt ((n : ℚ) * cfg.trainfrac)) n) (npPermutation g n)
  have hnd : (((npPermutation g n).take (pyIdx (pyInt ((n : ℚ) * cfg.trainfrac)) n))
      ++ ((npPermutation g n).drop (pyIdx (pyInt ((n : ℚ) * cfg.trainfrac)) n))).Nodup := by
    rw [hsplit]
    exact npPermutation_nodup g n
  have hdisj := (List.nodup_append.mp hnd).2.2
  have hmem : i ∈ npPermutation g n := (mem_npPermutation g n i).mpr h
  rw [← hsplit] at hmem
  rcases List.mem_append.mp hmem with hm | hm
  · have hno : i ∉ (npPermutation g n).drop (pyIdx (pyInt ((n : ℚ) * cfg.trainfrac)) n) :=
      fun hd => hdisj hm hd
    constructor <;> simp [hm, hno]
  · have hno : i ∉ (npPermutation g n).take (pyIdx (pyInt ((n : ℚ) * cfg.trainfrac)) n) :=
      fun ht => hdisj ht hm
    constructor <;> simp [hm, hno]

/-- C4, witness at `N = 2`, `i = 0`, defaults. -/
theorem c4_witness : 0 < 2
    ∧ (((informPartition cfgBase [0] 2).1.getD 0 false
          && (informPartition cfgBase [0] 2).2.getD 0 false) = false
        ∧ ((informPartition cfgBase [0] 2).1.getD 0 false
          || (informPartition cfgBase [0] 2).2.getD 0 false) = true) :=
  ⟨by decide, c4_masks_disjoint_exhaustive cfgBase [0] 2 0 (by decide)⟩

/-- C5: for a training fraction in `(0, 1)`, exactly
`k = floor(N * trainfrac)` rows are `True` in the training mask and the
remaining `N - k` rows are `True` in the validation mask. -/
theorem c5_partition_sizes (cfg : InformConfig) (g : List Nat) (n : Nat)
    (h0 : 0 < cfg.trainfrac) (h1 : cfg.trainfrac < 1) :
    (informPartition cfg g n).1.count true = (⌊(n : ℚ) * cfg.trainfrac⌋).toNat
      ∧ (informPartition cfg g n).2.count true = n - (⌊(n : ℚ) * cfg.trainfrac⌋).toNat := by
  have hq : 0 ≤ (n : ℚ) * cfg.trainfrac := mul_nonneg (Nat.cast_nonneg n) h0.le
  have hint : pyInt ((n : ℚ) * cfg.trainfrac) = ⌊(n : ℚ) * cfg.trainfrac⌋ := pyInt_eq_floor _ hq
  have hle : ⌊(n : ℚ) * cfg.trainfrac⌋ ≤ (n : Int) := by
    have hmul : (n : ℚ) * cfg.trainfrac ≤ (n : ℚ) := by
      calc (n : ℚ) * cfg.trainfrac ≤ (n : ℚ) * 1 :=
            mul_le_mul_of_nonneg_left h1.le (Nat.cast_nonneg n)
        _ = (n : ℚ) := mul_one _
    calc ⌊(n : ℚ) * cfg.trainfrac⌋ ≤ ⌊(n : ℚ)⌋ := Int.floor_le_floor hmul
      _ = (n : Int) := Int.floor_natCast n
  have hfl0 : 0 ≤ ⌊(n : ℚ) * cfg.trainfrac⌋ := Int.floor_nonneg.mpr hq
  have hidx : pyIdx (pyInt ((n : ℚ) * cfg.trainfrac)) n
      = (⌊(n : ℚ) * cfg.trainfrac⌋).toNat := by
    rw [hint]
    unfold pyIdx
    rw [if_neg (by omega)]
    omega
  obtain ⟨hc1, hc2⟩ := informPartition_count cfg g n
  rw [hidx] at hc1 hc2
  exact ⟨hc1, hc2⟩

/-- C5, witness at `N = 4` with the default `trainfrac = 3/4`
(`k = 3`). -/
theorem c5_witness : 0 < cfgBase.trainfrac ∧ cfgBase.trainfrac < 1
    ∧ ((informPartition cfgBase [0] 4).1.count true
          = (⌊((4 : Nat) : ℚ) * cfgBase.trainfrac⌋).toNat
        ∧ (informPartition cfgBase [0] 4).2.count true
          = 4 - (⌊((4 : Nat) : ℚ) * cfgBase.trainfrac⌋).toNat) :=
  ⟨by decide, by decide, c5_partition_sizes cfgBase [0] 4 (by decide) (by decide)⟩

/-! ### Claims about the feature encoding (C3, C6, C10) -/

/-- On a masked cell inside the zip range, the magnitude column receives
the positional `maglims.values()` entry. -/
theorem prepCell_mag_of_mask (tbl : Table) (cfg : PrepConfig) (r i : Nat)
    (hi : i < zipLen cfg)
    (hm : nondetMask cfg.nondetVal (magAt tbl cfg i r) = true) :
    prepCell tbl cfg r i = OV.fin (limAt cfg i) := by
  have hb : i < cfg.bands.length := lt_of_lt_of_le hi (Nat.min_le_left _ _)
  unfold prepCell
  rw [if_pos hb, if_pos hi, if_pos hm]

/-- On a masked cell inside the zip range, the error column receives
`1.0`, whatever the raw error and the log flag. -/
theorem prepCell_err_of_mask (tbl : Table) (cfg : PrepConfig) (r i : Nat)
    (hi : i < zipLen cfg)
    (hm : nondetMask cfg.nondetVal (magAt tbl cfg i r) = true) :
    prepCell tbl cfg r (cfg.bands.length + i) = OV.fin 1 := by
  have hb : ¬ (cfg.bands.length + i < cfg.bands.length) := by omega
  have hsub : cfg.bands.length + i - cfg.bands.length = i := by omega
  unfold prepCell
  rw [if_neg hb, hsub, if_pos hi, if_pos hm]

/-- Association-list lookup by the key at position `i` returns the value
at position `i`, when the keys are distinct. -/
theorem lookupLim_at (ml : List (String × ℚ)) : ∀ i : Nat, i < ml.length →
    (ml.map Prod.fst).Nodup →
    lookupLim ml ((ml.map Prod.fst).getD i "") = some ((ml.map Prod.snd).getD i 0) := by
  induction ml with
  | nil => intro i h; simp at h
  | cons p t ih =>
    intro i h hnd
    cases i with
    | zero => simp [lookupLim]
    | succ i =>
      have hlen : i < t.length := by simpa using h
      rw [List.map_cons] at hnd
      have hcons := List.nodup_cons.mp hnd
      have hkey : (t.map Prod.fst).getD i "" ∈ t.map Prod.fst := by
        have hlt : i < (t.map Prod.fst).length := by simpa using hlen
        rw [List.getD_eq_getElem?_getD, List.getElem?_eq_getElem hlt]
        exact List.getElem_mem hlt
      have hfalse : (p.1 == (t.map Prod.fst).getD i "") = false := by
        rw [beq_eq_false_iff_ne]
        intro he
        exact hcons.1 (he ▸ hkey)
      simp only [List.map_cons, List.getD_cons_succ]
      unfold lookupLim
      rw [List.find?_cons, hfalse]
      exact ih i hlen hcons.2

/-- C3, counterexample: with the right keys in a different iteration
order (`maglims = {g: 25, u: 27}` against `bands = [u, g]`), the masked
`u` magnitude is replaced by `25` — not by `u`'s configured limit `27`. -/
theorem c3_counterexample :
    nondetMask cfgSwap.nondetVal (magAt tblSwap cfgSwap 0 0) = true
      ∧ lookupLim cfgSwap.maglims (cfgSwap.bands.getD 0 "") = some 27
      ∧ prepCell tblSwap cfgSwap 0 0 = OV.fin 25
      ∧ OV.fin 25 ≠ OV.fin 27 := by decide

/-- C3, amended: provided the `mag_limits` iteration order matches the
band list (key at position `i` is band `i`), a masked row's magnitude
column receives that band's configured limit (the value `mag_limits`
associates with the band's identifier) and its error column receives
`1.0`, regardless of the raw error value and of the log flag. -/
theorem c3_nondetection_substitution (tbl : Table) (cfg : PrepConfig) (r i : Nat)
    (hi : i < zipLen cfg)
    (halign : cfg.maglims.map Prod.fst = cfg.bands)
    (hnd : cfg.bands.Nodup)
    (hm : nondetMask cfg.nondetVal (magAt tbl cfg i r) = true) :
    prepCell tbl cfg r i = OV.fin (limAt cfg i)
      ∧ lookupLim cfg.maglims (cfg.bands.getD i "") = some (limAt cfg i)
      ∧ prepCell tbl cfg r (cfg.bands.length + i) = OV.fin 1 := by
  refine ⟨prepCell_mag_of_mask tbl cfg r i hi hm, ?_,
    prepCell_err_of_mask tbl cfg r i hi hm⟩
  have hml : i < cfg.maglims.length :=
    lt_of_lt_of_le hi (le_trans (Nat.min_le_right _ _) (Nat.min_le_right _ _))
  have hlook := lookupLim_at cfg.maglims i hml (by rw [halign]; exact hnd)
  rw [halign] at hlook
  exact hlook

/-- C3, witness: an aligned two-band configuration with a masked `u`
row. -/
theorem c3_witness : (0 < zipLen cfgAligned
      ∧ cfgAligned.maglims.map Prod.fst = cfgAligned.bands
      ∧ cfgAligned.bands.Nodup
      ∧ nondetMask cfgAligned.nondetVal (magAt tblAligned cfgAligned 0 0) = true)
    ∧ (prepCell tblAligned cfgAligned 0 0 = OV.fin (limAt cfgAligned 0)
      ∧ lookupLim cfgAligned.maglims (cfgAligned.bands.getD 0 "") = some (limAt cfgAligned 0)
      ∧ prepCell tblAligned cfgAligned 0 (cfgAligned.bands.length + 0) = OV.fin 1) :=
  ⟨⟨by decide, by decide, by decide, by decide⟩,
    c3_nondetection_substitution tblAligned cfgAligned 0 0
      (by decide) (by decide) (by decide) (by decide)⟩

/-- C6: on a non-masked row, the error column is the natural logarithm
(`np.log`) of the raw error when the log flag is on, and the raw error
unchanged when it is off. -/
theorem c6_log_transform (tbl : Table) (cfg : PrepConfig) (r i : Nat)
    (hi : i < zipLen cfg)
    (hm : nondetMask cfg.nondetVal (magAt tbl cfg i r) = false) :
    prepCell tbl cfg r (cfg.bands.length + i)
      = if cfg.logflag then npLog (errAt tbl cfg i r)
        else (errAt tbl cfg i r).toOV := by
  have hb : ¬ (cfg.bands.length + i < cfg.bands.length) := by omega
  have hsub : cfg.bands.length + i - cfg.bands.length = i := by omega
  unfold prepCell
  rw [if_neg hb, hsub, if_pos hi, if_neg (by simp [hm])]

/-- C6, witness: the same non-masked row under the flag on
(`log(1/3)` symbolically) and off (raw `1/3`). -/
theorem c6_witness : (1 < zipLen cfgAligned
      ∧ nondetMask cfgAligned.nondetVal (magAt tblAligned cfgAligned 1 0) = false
      ∧ prepCell tblAligned cfgAligned 0 (cfgAligned.bands.length + 1)
        = if cfgAligned.logflag then npLog (errAt tblAligned cfgAligned 1 0)
          else (errAt tblAligned cfgAligned 1 0).toOV)
    ∧ (1 < zipLen cfgNoLog
      ∧ nondetMask cfgNoLog.nondetVal (magAt tblAligned cfgNoLog 1 0) = false
      ∧ prepCell tblAligned cfgNoLog 0 (cfgNoLog.bands.length + 1)
        = if cfgNoLog.logflag then npLog (errAt tblAligned cfgNoLog 1 0)
          else (errAt tblAligned cfgNoLog 1 0).toOV) :=
  ⟨⟨by decide, by decide, c6_log_transform tblAligned cfgAligned 0 1 (by decide) (by decide)⟩,
   ⟨by decide, by decide, c6_log_transform tblAligned cfgNoLog 0 1 (by decide) (by decide)⟩⟩

/-- C10: the limit substituted on a masked row is the positional entry of
the `mag_limits` iteration order (`maglims.values()` zipped with the band
list), not the value looked up by the band's identifier; with the right
keys in permuted order (`cfgSwap`), the two differ (`25` substituted
while the identifier lookup gives `27`). -/
theorem c10_positional_limits :
    (∀ (tbl : Table) (cfg : PrepConfig) (r i : Nat), i < zipLen cfg →
        nondetMask cfg.nondetVal (magAt tbl cfg i r) = true →
        prepCell tbl cfg r i = OV.fin ((cfg.maglims.map Prod.snd).getD i 0))
      ∧ (nondetMask cfgSwap.nondetVal (magAt tblSwap cfgSwap 0 0) = true
        ∧ (cfgSwap.maglims.map Prod.fst).Perm cfgSwap.bands
        ∧ prepCell tblSwap cfgSwap 0 0 = OV.fin ((cfgSwap.maglims.map Prod.snd).getD 0 0)
        ∧ lookupLim cfgSwap.maglims (cfgSwap.bands.getD 0 "") = some 27
        ∧ prepCell tblSwap cfgSwap 0 0 ≠ OV.fin 27) := by
  constructor
  · intro tbl cfg r i hi hm
    exact prepCell_mag_of_mask tbl cfg r i hi hm
  · decide

/-- C10, witness: the positional statement applied at the permuted-order
configuration. -/
theorem c10_witness : (0 < zipLen cfgSwap
      ∧ nondetMask cfgSwap.nondetVal (magAt tblSwap cfgSwap 0 0) = true)
    ∧ prepCell tblSwap cfgSwap 0 0 = OV.fin ((cfgSwap.maglims.map Prod.snd).getD 0 0) :=
  ⟨⟨by decide, by decide⟩,
    c10_positional_limits.1 tblSwap cfgSwap 0 0 (by decide) (by decide)⟩

/-! ### Claims about the run and inference paths (C1, C7, C8, C9) -/

/-- C1: at a concrete one-row chunk where the model predicts mean `1/2`
and total variance `4`, line 146 builds the Gaussian with `loc = 1/2` and
`scale = 4` — the total variance itself, which is not its square root
(`4 * 4 ≠ 4`). -/
theorem c1_scale_is_total_variance :
    ((processChunk mC1 cfgE1 tblZ).map fun r => (r.loc, r.scale, r.totalV))
        = [(1 / 2, 4, 4)]
      ∧ ¬ ((4 : ℚ) * 4 = 4) := by decide

/-- C7: with the balanced method selected and a non-default bin width
configured, the `getOmega` call of line 100 passes the targets and the
method tag but no bin width. -/
theorem c7_binwidth_not_forwarded :
    cfgBal.cslMethod = "balanced"
      ∧ omegaOf (informRun cfgBal tblZ [])
        = some { targets := [FV.fin (3 / 10)], method := "balanced", binWidth := none }
      ∧ (none : Option ℚ) ≠ some cfgBal.cslBinwidth := by decide

/-- C8, counterexample: with `N = 3` and `trainfrac = 1/5` (so
`floor(N * f) = 0`), the run does not reject the configuration: it
reaches the `model.train` call with an all-`False` training mask. -/
theorem c8_counterexample :
    pyInt ((3 : ℚ) * cfg8.trainfrac) = 0
      ∧ (trainOf (informRun cfg8 tbl8 [])).map (fun t => (t.trainMask, t.trainMask.count true))
        = some ([false, false, false], 0)
      ∧ trainOf (informRun cfg8 tbl8 []) ≠ none := by decide

/-- C8, amended: the run contains no partition-degeneracy guard at all:
for every configuration, table and generator state it reaches the
training call, whose training mask has `int(N * trainfrac)` `True`
entries (zero of them in the degenerate case) and whose validation mask
has the rest. -/
theorem c8_no_degeneracy_guard (cfg : InformConfig) (tbl : Table) (g : List Nat) :
    ∃ res, informRun cfg tbl g = Except.ok res
      ∧ res.trainCall.trainMask.count true
        = pyIdx (pyInt ((totrows tbl cfg.prep : ℚ) * cfg.trainfrac)) (totrows tbl cfg.prep)
      ∧ res.trainCall.valMask.count true
        = totrows tbl cfg.prep
          - pyIdx (pyInt ((totrows tbl cfg.prep : ℚ) * cfg.trainfrac)) (totrows tbl cfg.prep) := by
  have hlen : (prepMatrix tbl cfg.prep).length = totrows tbl cfg.prep := by
    simp [prepMatrix]
  refine ⟨_, rfl, ?_, ?_⟩
  · show (informPartition cfg g (prepMatrix tbl cfg.prep).length).1.count true = _
    rw [hlen]
    exact (informPartition_count cfg g (totrows tbl cfg.prep)).1
  · show (informPartition cfg g (prepMatrix tbl cfg.prep).length).2.count true = _
    rw [hlen]
    exact (informPartition_count cfg g (totrows tbl cfg.prep)).2

/-- Reading inside a `[s, e)` slice is reading the underlying list at the
shifted position. -/
theorem getD_slice {α : Type} (l : List α) (s k r : Nat) (d : α) (h : r < k) :
    ((l.drop s).take k).getD r d = l.getD (s + r) d := by
  rw [List.getD_eq_getElem?_getD, List.getD_eq_getElem?_getD,
    List.getElem?_take_of_lt h, List.getElem?_drop]

/-- Magnitude access commutes with table slicing. -/
theorem magAt_slice (tbl : Table) (cfg : PrepConfig) (s e i r : Nat) (h : r < e - s) :
    magAt (sliceTable tbl s e) cfg i r = magAt tbl cfg i (s + r) :=
  getD_slice _ s (e - s) r _ h

/-- Error access commutes with table slicing. -/
theorem errAt_slice (tbl : Table) (cfg : PrepConfig) (s e i r : Nat) (h : r < e - s) :
    errAt (sliceTable tbl s e) cfg i r = errAt tbl cfg i (s + r) :=
  getD_slice _ s (e - s) r _ h

/-- The encoded cell of a chunk row equals the encoded cell of the
corresponding full-table row: `_prepare_data` is a per-row transform. -/
theorem prepCell_slice (tbl : Table) (cfg : PrepConfig) (s e r : Nat) (h : r < e - s)
    (c : Nat) :
    prepCell (sliceTable tbl s e) cfg r c = prepCell tbl cfg (s + r) c := by
  unfold prepCell
  rw [magAt_slice tbl cfg s e c r h,
    magAt_slice tbl cfg s e (c - cfg.bands.length) r h,
    errAt_slice tbl cfg s e (c - cfg.bands.length) r h]

/-- Row count of a chunk. -/
theorem totrows_slice (tbl : Table) (cfg : PrepConfig) (s e : Nat) :
    totrows (sliceTable tbl s e) cfg = min (e - s) (totrows tbl cfg - s) := by
  simp [totrows, sliceTable]

/-- `_process_chunk` is the per-row computation mapped over the chunk's
rows. -/
theorem processChunk_eq (model : GPzModel) (cfg : EstimConfig) (tbl : Table) :
    processChunk model cfg tbl
      = (List.range (totrows tbl cfg.prep)).map (rowResult model cfg tbl) := by
  unfold processChunk prepMatrix rowResult
  rw [List.map_map, List.map_map]
  rfl

/-- The per-row result on a chunk row equals the per-row result on the
corresponding full-table row. -/
theorem rowResult_slice (model : GPzModel) (cfg : EstimConfig) (tbl : Table)
    (s e r : Nat) (h : r < e - s) :
    rowResult model cfg (sliceTable tbl s e) r = rowResult model cfg tbl (s + r) := by
  unfold rowResult
  simp only [prepCell_slice tbl cfg.prep s e r h]

/-- Chunked processing of consecutive chunk sizes starting at row `s`
produces exactly the per-row results of rows `s, s+1, ...`. -/
theorem processChunked_go (model : GPzModel) (cfg : EstimConfig) (tbl : Table) :
    ∀ (sizes : List Nat) (s : Nat), s + sizes.sum ≤ totrows tbl cfg.prep →
    ((chunkStarts sizes s).map fun p =>
        processChunk model cfg (sliceTable tbl p.1 p.2)).flatten
      = (List.range' s sizes.sum).map (rowResult model cfg tbl) := by
  intro sizes
  induction sizes with
  | nil =>
    intro s h
    simp [chunkStarts]
  | cons sz rest ih =>
    intro s h
    have hsum : s + (sz + rest.sum) ≤ totrows tbl cfg.prep := by simpa using h
    simp only [chunkStarts, List.map_cons, List.flatten_cons, List.sum_cons]
    rw [processChunk_eq]
    have h1 : totrows (sliceTable tbl s (s + sz)) cfg.prep = sz := by
      rw [totrows_slice]
      omega
    rw [h1]
    have h2 : (List.range sz).map (rowResult model cfg (sliceTable tbl s (s + sz)))
        = (List.range sz).map fun r => rowResult model cfg tbl (s + r) := by
      apply List.map_congr_left
      intro r hr
      exact rowResult_slice model cfg tbl s (s + sz) r (by simp at hr; omega)
    have h3 : ((List.range sz).map fun r => rowResult model cfg tbl (s + r))
        = (List.range' s sz).map (rowResult model cfg tbl) := by
      rw [List.range'_eq_map_range, List.map_map]
      rfl
    rw [h2, h3, ih (s + sz) (by omega), ← List.map_append, List.range'_append_1,
      Nat.add_comm rest.sum sz]

/-- C9: splitting the rows `[0, N)` into consecutive chunks of any sizes
and running `_process_chunk` on each chunk yields, row for row, exactly
the results of one chunk of size `N` — same means, variances, ensemble
parameters and `zmode` values. -/
theorem c9_chunk_invariance (model : GPzModel) (cfg : EstimConfig) (tbl : Table)
    (sizes : List Nat) (h : sizes.sum = totrows tbl cfg.prep) :
    processChunked model cfg tbl sizes = processChunk model cfg tbl := by
  unfold processChunked
  rw [processChunked_go model cfg tbl sizes 0 (by omega), h, processChunk_eq,
    List.range_eq_range']

/-- C9, witness: a three-row table processed as chunks of sizes `1` and
`2` versus one chunk. -/
theorem c9_witness : ([1, 2].sum = totrows tbl8 cfgE1.prep)
    ∧ processChunked m9 cfgE1 tbl8 [1, 2] = processChunk m9 cfgE1 tbl8 :=
  ⟨by decide, c9_chunk_invariance m9 cfgE1 tbl8 [1, 2] (by decide)⟩
